import Mathlib

/-
Verification of the conversation/session engine of the VQA assistant
front-end (src/frontend/src/components/ChatbotUI.jsx).  Strings are
modelled as `List Char`; the JavaScript regular-expression scans used by
the component are translated into explicit recursive scanners over
character lists.  All definitions follow the source; ASCII semantics of
the JavaScript string primitives (trim, toLowerCase, \s) are used, which
coincides with JS on the ASCII inputs the component manipulates.
-/

/-- Whitespace test matching the ASCII fragment of JavaScript `\s` /
`String.prototype.trim` (space, tab, LF, CR, VT, FF). -/
def jsWs (c : Char) : Bool :=
  decide (c = ' ' ∨ c = '\t' ∨ c = '\n' ∨ c = '\r' ∨ c = Char.ofNat 11 ∨ c = Char.ofNat 12)

/-- ASCII lower-casing, the fragment of JS `toLowerCase` used by the code. -/
def lowerChar (c : Char) : Char :=
  if 'A' ≤ c ∧ c ≤ 'Z' then Char.ofNat (c.toNat + 32) else c

/-- Boolean prefix test: `startsWith p s` holds when `p` is a prefix of `s`
(JS `String.prototype.startsWith`). -/
def startsWith : List Char → List Char → Bool
  | [], _ => true
  | _ :: _, [] => false
  | p :: ps, s :: ss => p == s && startsWith ps ss

/-- Boolean suffix test (JS `String.prototype.endsWith`). -/
def endsWith (p s : List Char) : Bool :=
  startsWith p.reverse s.reverse

/-- Case-insensitive prefix test, used for the `i`-flagged regexes. -/
def ciStartsWith : List Char → List Char → Bool
  | [], _ => true
  | _ :: _, [] => false
  | p :: ps, s :: ss => lowerChar p == lowerChar s && ciStartsWith ps ss

/-- JS `String.prototype.trim` on ASCII input. -/
def trim (s : List Char) : List Char :=
  ((s.dropWhile jsWs).reverse.dropWhile jsWs).reverse

/-- JS `String.prototype.replace` with a plain-string pattern and empty
replacement: the first occurrence of `pat` is deleted, everything else is
kept. -/
def removeFirst : List Char → List Char → List Char
  | [], _ => []
  | c :: cs, pat =>
    if startsWith pat (c :: cs) then (c :: cs).drop pat.length
    else c :: removeFirst cs pat

/-- Recognized image file extensions (ChatbotUI.jsx, `imageExtensions`). -/
def imageExtensions : List (List Char) :=
  [(".png".data), (".jpg".data), (".jpeg".data), (".gif".data),
   (".bmp".data), (".webp".data), (".svg".data)]

/-- One attempted match of the regex `https?:\/\/[^\s]+` at the head of the
string: the scheme followed by a maximal non-empty run of non-whitespace
characters.  Returns the matched URL and the remainder of the string. -/
def tryMatchUrl (s : List Char) : Option (List Char × List Char) :=
  if startsWith ("https://".data) s then
    if ((s.drop 8).takeWhile (fun c => !jsWs c)).isEmpty then none
    else some (s.take 8 ++ (s.drop 8).takeWhile (fun c => !jsWs c),
               (s.drop 8).dropWhile (fun c => !jsWs c))
  else if startsWith ("http://".data) s then
    if ((s.drop 7).takeWhile (fun c => !jsWs c)).isEmpty then none
    else some (s.take 7 ++ (s.drop 7).takeWhile (fun c => !jsWs c),
               (s.drop 7).dropWhile (fun c => !jsWs c))
  else none

/-- Global scan of the regex `(https?:\/\/[^\s]+)/g`: leftmost matches,
resuming after the end of each match.  The fuel argument (instantiated
with the length of the string) only serves termination; every step
consumes at least one character, so the scan is never cut short. -/
def scanUrlsAux : Nat → List Char → List (List Char)
  | 0, _ => []
  | _ + 1, [] => []
  | fuel + 1, c :: cs =>
    match tryMatchUrl (c :: cs) with
    | some (u, rest) => u :: scanUrlsAux fuel rest
    | none => scanUrlsAux fuel cs

/-- ChatbotUI.jsx `extractImageUrls`: all URLs matched by the global regex
whose lower-cased text ends in a recognized image extension, in
left-to-right order of appearance. -/
def extractImageUrls (text : List Char) : List (List Char) :=
  (scanUrlsAux text.length text).filter
    (fun u => imageExtensions.any (fun ext => endsWith ext (u.map lowerChar)))

/-
The bracketed-marker parser of the first ChatbotUI variant: the regex
`\[Image Link:\s*(\S+)\]/i` matched against the trimmed input, the token
accepted as an image URL only when `/^https?:\/\//i` holds, and the whole
matched substring removed from the text.
-/

/-- The literal head of the marker regex (matched case-insensitively). -/
def markerHead : List Char := ("[Image Link:".data)

/-- Index of the last `]` in a character list, if any. -/
def lastRBracketIdx (l : List Char) : Option Nat :=
  match l.reverse.findIdx? (fun c => c == ']') with
  | none => none
  | some k => some (l.length - 1 - k)

/-- Attempt to match `\[Image Link:\s*(\S+)\]/i` at the head of `s`.  The
literal head matches case-insensitively, `\s*` takes the whitespace run,
and the greedy `\S+` backtracks until a `]` follows, i.e. the capture is
the non-whitespace run cut at its last `]` (which must leave the capture
non-empty).  Returns (matched substring, captured token, remainder). -/
def matchMarkerAt (s : List Char) : Option (List Char × List Char × List Char) :=
  if ciStartsWith markerHead s then
    let r1 := s.drop markerHead.length
    let wsN := (r1.takeWhile jsWs).length
    let run := (r1.drop wsN).takeWhile (fun c => !jsWs c)
    match lastRBracketIdx run with
    | some j =>
      if 1 ≤ j then
        let total := markerHead.length + wsN + j + 1
        some (s.take total, run.take j, s.drop total)
      else none
    | none => none
  else none

/-- First match of the marker regex anywhere in the string (JS
`String.prototype.match` without the `g` flag): the engine tries each
start position from the left.  Returns (text before the match, captured
token, text after the match). -/
def findMarker : List Char → Option (List Char × List Char × List Char)
  | [] => none
  | c :: cs =>
    match matchMarkerAt (c :: cs) with
    | some (_, tok, rest) => some ([], tok, rest)
    | none =>
      match findMarker cs with
      | some (pre, tok, rest) => some (c :: pre, tok, rest)
      | none => none

/-- The scheme test `/^https?:\/\//i` of the first variant. -/
def schemeOkCI (u : List Char) : Bool :=
  ciStartsWith ("http://".data) u || ciStartsWith ("https://".data) u

/-- Text parsing of the first `handleSendMessage` variant (with no pending
upload): trim the input, find the first `[Image Link: <token>]` marker,
accept the token only if it has an http/https scheme, and strip the whole
marker from the text regardless of the token's validity.  Returns the
visible text (`none` when empty, mirroring `text || null`) and the
extracted image URL, if any. -/
def parse1 (input : List Char) : Option (List Char) × Option (List Char) :=
  let text := trim input
  match findMarker text with
  | some (pre, tok, rest) =>
    let text2 := trim (pre ++ rest)
    ((if text2 = [] then none else some text2),
     (if schemeOkCI tok then some tok else none))
  | none => ((if text = [] then none else some text), none)

/-
Data model of the second (authenticated) ChatbotUI variant.
-/

/-- Wire-shaped content part: `{type:"text"}`, `{type:"image_url"}` or
`{type:"image_base64"}`. -/
inductive ContentPart
  | text (value : List Char)
  | image_url (url : List Char)
  | image_base64 (b64 : List Char)
deriving DecidableEq

/-- A front-end message: id, ordered content parts, author flag and
timestamp (instants modelled as naturals). -/
structure Message where
  id : Nat
  content : List ContentPart
  isUser : Bool
  timestamp : Nat
deriving DecidableEq

/-- A chat registry entry. -/
structure ChatSession where
  id : Nat
  title : List Char
deriving DecidableEq

/-- The component state touched by the conversation/session engine. -/
structure UIState where
  messages : List Message
  textInput : List Char
  pendingImage : Option (List Char)
  user : Option (List Char)
  userId : Option Nat
  currentChatId : Option Nat
  chats : List ChatSession
  token : Option (List Char)
deriving DecidableEq

/-- A role+content record of the inference request bodies. -/
structure WireMessage where
  role : List Char
  content : List ContentPart
deriving DecidableEq

/-- The network request issued by `handleSendMessage`, if any. -/
inductive Request
  | unauthInference (messages : List WireMessage)
  | authInference (user_query : WireMessage) (user_id : Nat) (chat_id : Nat)
deriving DecidableEq

/-- Result of the awaited inference fetch: a 2xx answer, a non-success
status with optional `detail` body field, or a rejected promise. -/
inductive FetchOutcome
  | success (answer : List Char)
  | httpError (status : Nat) (detail : Option (List Char))
  | networkFailure (message : List Char)
deriving DecidableEq

/-- JS truthiness of a numeric id held in component state (`null` and `0`
are falsy). -/
def truthyId : Option Nat → Bool
  | none => false
  | some n => n != 0

/-- Compose the content parts of a new user message (ChatbotUI.jsx lines
513-540): extract the image URLs, strip each from the text (trimming after
each removal), then emit an optional text part followed by one part per
image, classifying by `http(s)://` and `data:image/` prefixes. -/
def composeContent (text : List Char) (pending : Option (List Char)) : List ContentPart :=
  let urls := extractImageUrls text
  let text2 := urls.foldl (fun t u => trim (removeFirst t u)) text
  let images := urls ++ pending.toList
  (if text2.isEmpty then [] else [ContentPart.text text2]) ++
    images.filterMap (fun img =>
      if startsWith ("http://".data) img || startsWith ("https://".data) img then
        some (ContentPart.image_url img)
      else if startsWith ("data:image/".data) img then
        some (ContentPart.image_base64 img)
      else none)

/-- The text-parsing pipeline of the second variant in isolation: visible
text after all URL removals, plus the extracted URLs. -/
def parse2 (input : List Char) : List Char × List (List Char) :=
  let text := trim input
  let urls := extractImageUrls text
  (urls.foldl (fun t u => trim (removeFirst t u)) text, urls)

/-- The empty-composition guard `!textInput.trim() && !pendingImage`. -/
def guardFails (st : UIState) : Bool :=
  (trim st.textInput).isEmpty && st.pendingImage.isNone

/-- The freshly composed user message (`newMessage`). -/
def userMessageOf (st : UIState) (now : Nat) : Message :=
  ⟨now, composeContent (trim st.textInput) st.pendingImage, true, now⟩

/-- Conversion of stored messages to the outgoing `chatHistory`: messages
with a non-empty part list become role+content records. -/
def chatHistoryOf (msgs : List Message) : List WireMessage :=
  msgs.filterMap (fun m =>
    if m.content.isEmpty then none
    else some ⟨(if m.isUser then ("user".data) else ("assistant".data)), m.content⟩)

/-- Role+content record of a single message. -/
def wireOf (m : Message) : WireMessage :=
  ⟨(if m.isUser then ("user".data) else ("assistant".data)), m.content⟩

/-- The `"Inference failed: " + err.message` text of the catch branch. -/
def errorText (m : List Char) : List Char := ("Inference failed: ".data) ++ m

/-- Message of the error thrown when authenticated context is missing. -/
def missingCtxMsg : List Char :=
  ("Missing userId or currentChatId for authenticated inference".data)

/-- The template `Inference failed: ${res.status}`. -/
def statusMsg (status : Nat) : List Char :=
  ("Inference failed: ".data) ++ (Nat.repr status).data

/-- The thrown message for a non-success response:
`errBody.detail || Inference failed: status` (an absent or empty detail is
falsy). -/
def httpErrMsg (status : Nat) (detail : Option (List Char)) : List Char :=
  match detail with
  | some d => if d.isEmpty then statusMsg status else d
  | none => statusMsg status

/-- The assistant message appended once the fetch settles: the answer on
success, the recovered error text otherwise.  Its id is `Date.now() + 1`
at reply time. -/
def outcomeReply (now2 : Nat) (outcome : FetchOutcome) : Message :=
  match outcome with
  | .success ans => ⟨now2 + 1, [ContentPart.text ans], false, now2⟩
  | .httpError st d => ⟨now2 + 1, [ContentPart.text (errorText (httpErrMsg st d))], false, now2⟩
  | .networkFailure m => ⟨now2 + 1, [ContentPart.text (errorText m)], false, now2⟩

/-- The assistant message appended when an authenticated send has no
usable user/chat id (the throw happens before any fetch). -/
def missingCtxReply (now2 : Nat) : Message :=
  ⟨now2 + 1, [ContentPart.text (errorText missingCtxMsg)], false, now2⟩

/-- Result of one `handleSendMessage` call: the request that was issued
(none when the guard rejects or the chat context is missing) and the
final component state. -/
structure SendResult where
  request : Option Request
  final : UIState
deriving DecidableEq

/-- ChatbotUI.jsx `handleSendMessage` (second variant, lines 510-626).
`now` is `Date.now()` at compose time, `now2` at reply time; `outcome` is
how the fetch settles (unused when no request is issued). -/
def handleSendMessage (st : UIState) (now now2 : Nat) (outcome : FetchOutcome) : SendResult :=
  if guardFails st then ⟨none, st⟩
  else
    let newMessage := userMessageOf st now
    let st1 := { st with
      messages := st.messages ++ [newMessage], textInput := [], pendingImage := none }
    let chatHistory := chatHistoryOf (st.messages ++ [newMessage])
    match st.token with
    | none =>
      ⟨some (Request.unauthInference chatHistory),
       { st1 with messages := st1.messages ++ [outcomeReply now2 outcome] }⟩
    | some _ =>
      if truthyId st.userId && truthyId st.currentChatId then
        ⟨some (Request.authInference ⟨("user".data), newMessage.content⟩
           (st.userId.getD 0) (st.currentChatId.getD 0)),
         { st1 with messages := st1.messages ++ [outcomeReply now2 outcome] }⟩
      else
        ⟨none, { st1 with messages := st1.messages ++ [missingCtxReply now2] }⟩

/-- ChatbotUI.jsx `handleLogout` (lines 785-788): only the username record
and the token are reset. -/
def handleLogout (st : UIState) : UIState :=
  { st with user := none, token := none }

/-- Result of the chat-listing fetch in `loadUserChats`. -/
inductive ChatsResult
  | ok (chats : List ChatSession)
  | httpError (body : List Char)
  | networkFailure (message : List Char)
deriving DecidableEq

/-- ChatbotUI.jsx `loadUserChats` (lines 790-810): a non-success response
resets the registry to empty; on success the registry is set to the list
received and `currentChatId` to the first entry's id — when the list is
empty, reading `chatsList[0].id` throws and the catch only logs, so the
selection is left unchanged; a rejected fetch is also only logged, leaving
all state unchanged. -/
def loadUserChats (st : UIState) (r : ChatsResult) : UIState :=
  match r with
  | .httpError _ => { st with chats := [] }
  | .networkFailure _ => st
  | .ok l =>
    match l with
    | [] => { st with chats := [] }
    | c :: _ => { st with chats := l, currentChatId := some c.id }

/-
Image preprocessing in `handleFileChange` (lines 628-676).  The pixel
arithmetic is done in rationals; the browser's numbers are floats, exact
on these products for all realistic dimensions.
-/

/-- The `maxDimension` constant. -/
def maxDimension : ℚ := 512

/-- The resize computation of `img.onload`: scale the larger axis down to
512 preserving aspect ratio, never upscale. -/
def resizeDims (w h : ℚ) : ℚ × ℚ :=
  if h < w then
    if maxDimension < w then (maxDimension, h * maxDimension / w) else (w, h)
  else
    if maxDimension < h then (w * maxDimension / h, maxDimension) else (w, h)

/-- What the canvas re-encode is asked to produce: target dimensions plus
the arguments of `canvas.toDataURL("image/jpeg", 0.7)`. -/
structure PendingUpload where
  width : ℚ
  height : ℚ
  mime : List Char
  quality : ℚ
deriving DecidableEq

/-- ChatbotUI.jsx `handleFileChange`: reject non-image media types (alert,
no state change), otherwise resize to the bounded dimensions and re-encode
as JPEG at quality 0.7. -/
def handleFileChange (fileType : List Char) (w h : ℚ) : Option PendingUpload :=
  if startsWith ("image/".data) fileType then
    some ⟨(resizeDims w h).1, (resizeDims w h).2, ("image/jpeg".data), 7/10⟩
  else none

/-- One occurrence of `u` as a contiguous substring of `t`. -/
def Occurs (u t : List Char) : Prop := ∃ pre rest, t = pre ++ u ++ rest

/-- The strings of `us` occur in `s` disjointly, in this order, from left
to right. -/
def SplitsInto : List Char → List (List Char) → Prop
  | _, [] => True
  | s, u :: us => ∃ pre rest, s = pre ++ u ++ rest ∧ SplitsInto rest us

/-- Well-formedness of extracted URLs: non-empty and whitespace-free. -/
def GoodUrls (us : List (List Char)) : Prop :=
  ∀ u ∈ us, u ≠ [] ∧ ∀ c ∈ u, jsWs c = false

/-- The image classifier of `composeContent` in isolation. -/
def classifyImage (img : List Char) : Option ContentPart :=
  if startsWith ("http://".data) img || startsWith ("https://".data) img then
    some (ContentPart.image_url img)
  else if startsWith ("data:image/".data) img then
    some (ContentPart.image_base64 img)
  else none

/-- Invariant maintained by `handleFileChange`: a pending image, when
present, is a `data:image/...` URL produced by the canvas re-encode. -/
def pendingInv (st : UIState) : Prop :=
  ∀ p, st.pendingImage = some p → startsWith ("data:image/".data) p = true

/-- A concrete anonymous state with one word typed and nothing pending. -/
def anonState : UIState :=
  ⟨[], ("hello".data), none, none, none, none, [], none⟩

/-- A concrete authenticated state with one stored message (id 5), a chat
selected and a drafted word. -/
def cexSendState : UIState :=
  ⟨[⟨5, [ContentPart.text ("a".data)], true, 5⟩], ("hi".data), none,
   some ("alice".data), some 7, some 3, [⟨3, ("Welcome Chat".data)⟩],
   some ("tok".data)⟩

/-
Supporting lemmas about the string primitives.
-/

theorem startsWith_iff (p s : List Char) : startsWith p s = true ↔ ∃ t, s = p ++ t := by
  induction p generalizing s with
  | nil => simp [startsWith]
  | cons a ps ih =>
    cases s with
    | nil => simp [startsWith]
    | cons b ss =>
      simp only [startsWith, Bool.and_eq_true, beq_iff_eq, ih]
      constructor
      · rintro ⟨rfl, t, rfl⟩
        exact ⟨t, rfl⟩
      · rintro ⟨t, h⟩
        injection h with h1 h2
        exact ⟨h1.symm, t, h2⟩

theorem startsWith_append_self (p t : List Char) : startsWith p (p ++ t) = true :=
  (startsWith_iff p (p ++ t)).2 ⟨t, rfl⟩

theorem startsWith_length_le {p s : List Char} (h : startsWith p s = true) :
    p.length ≤ s.length := by
  obtain ⟨t, rfl⟩ := (startsWith_iff p s).1 h
  simp

theorem splitsInto_nil (s : List Char) : SplitsInto s [] := trivial

theorem splitsInto_prepend {s : List Char} {us : List (List Char)} (g : List Char)
    (h : SplitsInto s us) : SplitsInto (g ++ s) us := by
  cases us with
  | nil => trivial
  | cons u us =>
    obtain ⟨pre, rest, rfl, h2⟩ := h
    exact ⟨g ++ pre, rest, by simp, h2⟩

theorem splitsInto_sublist {us vs : List (List Char)}
    (hsub : List.Sublist vs us) : ∀ {s : List Char}, SplitsInto s us → SplitsInto s vs := by
  induction hsub with
  | slnil => intro s _; trivial
  | cons a _ ih =>
    intro s h
    obtain ⟨pre, rest, rfl, h2⟩ := h
    have := splitsInto_prepend (pre ++ a) (ih h2)
    simpa using this
  | cons₂ a _ ih =>
    intro s h
    obtain ⟨pre, rest, rfl, h2⟩ := h
    exact ⟨pre, rest, rfl, ih h2⟩

theorem schemeChars_not_ws : ∀ c ∈ ("https://".data), jsWs c = false := by decide

theorem schemeChars7_not_ws : ∀ c ∈ ("http://".data), jsWs c = false := by decide

theorem tryMatchUrl_some {s u rest : List Char} (h : tryMatchUrl s = some (u, rest)) :
    s = u ++ rest ∧ u ≠ [] ∧
      (startsWith ("http://".data) u = true ∨ startsWith ("https://".data) u = true) ∧
      (∀ c ∈ u, jsWs c = false) := by
  unfold tryMatchUrl at h
  split at h
  case isTrue hs =>
    obtain ⟨t, rfl⟩ := (startsWith_iff _ _).1 hs
    rw [show (("https://".data ++ t)).take 8 = ("https://".data) from rfl,
        show (("https://".data ++ t)).drop 8 = t from rfl] at h
    split at h
    case isTrue => exact absurd h (by simp)
    case isFalse hb =>
      injection h with h; injection h with h1 h2
      subst h1; subst h2
      refine ⟨?_, by simp, Or.inr (startsWith_append_self _ _), ?_⟩
      · rw [List.append_assoc, List.takeWhile_append_dropWhile]
      · intro c hc
        rcases List.mem_append.1 hc with hc | hc
        · exact schemeChars_not_ws c hc
        · have := List.mem_takeWhile_imp hc
          simpa using this
  case isFalse =>
    split at h
    case isTrue hs =>
      obtain ⟨t, rfl⟩ := (startsWith_iff _ _).1 hs
      rw [show (("http://".data ++ t)).take 7 = ("http://".data) from rfl,
          show (("http://".data ++ t)).drop 7 = t from rfl] at h
      split at h
      case isTrue => exact absurd h (by simp)
      case isFalse hb =>
        injection h with h; injection h with h1 h2
        subst h1; subst h2
        refine ⟨?_, by simp, Or.inl (startsWith_append_self _ _), ?_⟩
        · rw [List.append_assoc, List.takeWhile_append_dropWhile]
        · intro c hc
          rcases List.mem_append.1 hc with hc | hc
          · exact schemeChars7_not_ws c hc
          · have := List.mem_takeWhile_imp hc
            simpa using this
    case isFalse => exact absurd h (by simp)

theorem scanUrlsAux_mem {f : Nat} :
    ∀ {s u : List Char}, u ∈ scanUrlsAux f s → u ≠ [] ∧
      (startsWith ("http://".data) u = true ∨ startsWith ("https://".data) u = true) ∧
      (∀ c ∈ u, jsWs c = false) := by
  induction f with
  | zero => intro s u h; simp [scanUrlsAux] at h
  | succ f ih =>
    intro s u h
    cases s with
    | nil => simp [scanUrlsAux] at h
    | cons c cs =>
      rw [scanUrlsAux] at h
      rcases htm : tryMatchUrl (c :: cs) with _ | ⟨u', rest⟩
      · rw [htm] at h; exact ih h
      · rw [htm] at h
        rcases List.mem_cons.1 h with rfl | h
        · obtain ⟨_, h1, h2, h3⟩ := tryMatchUrl_some htm
          exact ⟨h1, h2, h3⟩
        · exact ih h

theorem scanUrlsAux_splits (f : Nat) : ∀ s : List Char, SplitsInto s (scanUrlsAux f s) := by
  induction f with
  | zero => intro s; simp [scanUrlsAux, splitsInto_nil]
  | succ f ih =>
    intro s
    cases s with
    | nil => simp [scanUrlsAux, splitsInto_nil]
    | cons c cs =>
      rw [scanUrlsAux]
      rcases htm : tryMatchUrl (c :: cs) with _ | ⟨u', rest⟩
      · have := splitsInto_prepend [c] (ih cs)
        simpa using this
      · obtain ⟨heq, _, _, _⟩ := tryMatchUrl_some htm
        exact ⟨[], rest, by simpa using heq, ih rest⟩

theorem extractImageUrls_mem {t u : List Char} (h : u ∈ extractImageUrls t) :
    u ≠ [] ∧
      (startsWith ("http://".data) u = true ∨ startsWith ("https://".data) u = true) ∧
      (∀ c ∈ u, jsWs c = false) ∧
      (∃ ext ∈ imageExtensions, endsWith ext (u.map lowerChar) = true) := by
  rw [extractImageUrls, List.mem_filter] at h
  obtain ⟨h1, h2, h3⟩ := scanUrlsAux_mem h.1
  refine ⟨h1, h2, h3, ?_⟩
  have := h.2
  simpa [List.any_eq_true] using this

theorem extractImageUrls_good (t : List Char) : GoodUrls (extractImageUrls t) :=
  fun _ hu => ⟨(extractImageUrls_mem hu).1, (extractImageUrls_mem hu).2.2.1⟩

theorem extractImageUrls_splits (t : List Char) : SplitsInto t (extractImageUrls t) :=
  splitsInto_sublist (List.filter_sublist _) (scanUrlsAux_splits t.length t)

theorem occurs_removeFirst_length {u : List Char} :
    ∀ {t : List Char}, Occurs u t → (removeFirst t u).length + u.length = t.length := by
  intro t
  induction t with
  | nil =>
    rintro ⟨pre, rest, heq⟩
    obtain ⟨h1, h2⟩ := List.append_eq_nil.1 heq.symm
    obtain ⟨-, h3⟩ := List.append_eq_nil.1 h1
    simp [removeFirst, h3]
  | cons c cs ih =>
    rintro ⟨pre, rest, heq⟩
    rw [removeFirst]
    by_cases hsw : startsWith u (c :: cs) = true
    · rw [if_pos hsw]
      have hle := startsWith_length_le hsw
      rw [List.length_drop]
      omega
    · rw [if_neg hsw]
      cases pre with
      | nil =>
        exact absurd ((startsWith_iff u (c :: cs)).2 ⟨rest, by simpa using heq⟩) hsw
      | cons c' pre' =>
        have heq' : cs = pre' ++ u ++ rest := by
          have := heq
          simp only [List.cons_append] at this
          injection this with _ h2
        have := ih ⟨pre', rest, heq'⟩
        simp only [List.length_cons]
        omega

theorem splitsInto_removeFirst {u : List Char} {us : List (List Char)} :
    ∀ {t : List Char}, SplitsInto t (u :: us) → SplitsInto (removeFirst t u) us := by
  intro t
  induction t with
  | nil =>
    rintro ⟨pre, rest, heq, h2⟩
    obtain ⟨-, h3⟩ := List.append_eq_nil.1 heq.symm
    subst h3
    simpa [removeFirst] using h2
  | cons c cs ih =>
    rintro ⟨pre, rest, heq, h2⟩
    rw [removeFirst]
    by_cases hsw : startsWith u (c :: cs) = true
    · rw [if_pos hsw]
      have hle : u.length ≤ (pre ++ u).length := by simp
      have hdrop : (c :: cs).drop u.length = (pre ++ u).drop u.length ++ rest := by
        rw [heq, List.append_assoc, ← List.append_assoc,
          List.drop_append_of_le_length hle]
      rw [hdrop]
      exact splitsInto_prepend _ h2
    · rw [if_neg hsw]
      cases pre with
      | nil =>
        exact absurd ((startsWith_iff u (c :: cs)).2 ⟨rest, by simpa using heq⟩) hsw
      | cons c' pre' =>
        have heq' : cs = pre' ++ u ++ rest := by
          have := heq
          simp only [List.cons_append] at this
          injection this with _ h2'
        have := splitsInto_prepend [c] (ih ⟨pre', rest, heq', h2⟩)
        simpa using this

theorem splitsInto_of_ws_lead :
    ∀ (a : List Char) {s : List Char} {us : List (List Char)},
      (∀ c ∈ a, jsWs c = true) → GoodUrls us → SplitsInto (a ++ s) us → SplitsInto s us := by
  intro a
  induction a with
  | nil => intro s us _ _ h; simpa using h
  | cons c a' ih =>
    intro s us hws hg h
    cases us with
    | nil => trivial
    | cons u us' =>
      obtain ⟨pre, rest, heq, h2⟩ := h
      cases pre with
      | nil =>
        obtain ⟨hne, hnws⟩ := hg u (List.mem_cons_self u us')
        cases u with
        | nil => exact absurd rfl hne
        | cons d u' =>
          simp only [List.cons_append, List.nil_append] at heq
          injection heq with h1 _
          have hcw : jsWs c = true := hws c (List.mem_cons_self c a')
          have hdw : jsWs d = false := hnws d (List.mem_cons_self d u')
          rw [h1] at hcw
          rw [hcw] at hdw
          exact absurd hdw (by simp)
      | cons c' pre' =>
        have heq' : a' ++ s = pre' ++ u ++ rest := by
          have := heq
          simp only [List.cons_append] at this
          injection this with _ h2'
        exact ih (fun x hx => hws x (List.mem_cons_of_mem c hx)) hg
          ⟨pre', rest, heq', h2⟩

theorem matched_prefix_le {s b pre u rest : List Char} (hne : u ≠ [])
    (hnws : ∀ c ∈ u, jsWs c = false) (hws : ∀ c ∈ b, jsWs c = true)
    (heq2 : s ++ b = (pre ++ u) ++ rest) : (pre ++ u).length ≤ s.length := by
  by_contra hlt
  push_neg at hlt
  have ha : (pre ++ u).length = pre.length + u.length := List.length_append pre u
  have hkle : (pre ++ u).length ≤ s.length + b.length := by
    have hlen := congrArg List.length heq2
    simp only [List.length_append] at hlen
    omega
  obtain ⟨n, hn⟩ : ∃ n, n = (pre ++ u).length - s.length := ⟨_, rfl⟩
  have htake : (s ++ b).take (pre ++ u).length = pre ++ u := by
    rw [heq2, List.take_left]
  rw [List.take_append_eq_append_take, List.take_of_length_le (le_of_lt hlt), ← hn] at htake
  have hbne : b.take n ≠ [] := by
    intro hnil
    have := congrArg List.length hnil
    simp only [List.length_take, List.length_nil] at this
    omega
  have hlast1 : (pre ++ u).getLast? = u.getLast? :=
    List.getLast?_append_of_ne_nil pre hne
  have hlast2 : (s ++ b.take n).getLast? = (b.take n).getLast? :=
    List.getLast?_append_of_ne_nil s hbne
  rcases hu : u.getLast? with _ | lu
  · exact hne (List.getLast?_eq_none_iff.1 hu)
  rcases hbl : (b.take n).getLast? with _ | lb
  · exact hbne (List.getLast?_eq_none_iff.1 hbl)
  have hlu : lu ∈ u := List.mem_of_mem_getLast? (by rw [hu]; rfl)
  have hlb : lb ∈ b := by
    have hmem : lb ∈ b.take n := List.mem_of_mem_getLast? (by rw [hbl]; rfl)
    exact (List.take_sublist _ _).subset hmem
  have hsome : some lu = some lb := by
    rw [← hu, ← hlast1, ← htake, hlast2, hbl]
  injection hsome with hlulb
  have h1 := hnws lu hlu
  have h2 := hws lb hlb
  rw [hlulb, h2] at h1
  exact absurd h1 (by simp)

theorem splitsInto_of_ws_suffix :
    ∀ {us : List (List Char)} {s b : List Char},
      GoodUrls us → (∀ c ∈ b, jsWs c = true) → SplitsInto (s ++ b) us → SplitsInto s us := by
  intro us
  induction us with
  | nil => intro s b _ _ _; trivial
  | cons u us' ih =>
    intro s b hg hws h
    obtain ⟨pre, rest, heq, h2⟩ := h
    obtain ⟨hne, hnws⟩ := hg u (List.mem_cons_self u us')
    have heq2 : s ++ b = (pre ++ u) ++ rest := by rw [heq, List.append_assoc]
    have hk : (pre ++ u).length ≤ s.length := matched_prefix_le hne hnws hws heq2
    have htake : s.take (pre ++ u).length = pre ++ u := by
      rw [← List.take_append_of_le_length hk, heq2, List.take_left]
    have hdrop : rest = s.drop (pre ++ u).length ++ b := by
      have h1 : (s ++ b).drop (pre ++ u).length = s.drop (pre ++ u).length ++ b :=
        List.drop_append_of_le_length hk
      rw [heq2, List.drop_left] at h1
      exact h1
    refine ⟨pre, s.drop (pre ++ u).length, ?_, ?_⟩
    · have hs' : s = (pre ++ u) ++ s.drop (pre ++ u).length := by
        conv_lhs => rw [← List.take_append_drop (pre ++ u).length s]
        rw [htake]
      rw [hs', List.append_assoc]
      simp
    · refine ih (fun x hx => hg x (List.mem_cons_of_mem u hx)) hws ?_
      rw [← hdrop]
      exact h2

theorem trim_decomp (s : List Char) :
    ∃ a b, s = a ++ trim s ++ b ∧ (∀ c ∈ a, jsWs c = true) ∧ (∀ c ∈ b, jsWs c = true) := by
  refine ⟨s.takeWhile jsWs, ((s.dropWhile jsWs).reverse.takeWhile jsWs).reverse, ?_, ?_, ?_⟩
  · conv_lhs => rw [← List.takeWhile_append_dropWhile jsWs s]
    rw [trim, List.append_assoc]
    congr 1
    conv_lhs => rw [← List.reverse_reverse (s.dropWhile jsWs),
      ← List.takeWhile_append_dropWhile jsWs (s.dropWhile jsWs).reverse]
    rw [List.reverse_append]
  · exact fun c hc => List.mem_takeWhile_imp hc
  · intro c hc
    rw [List.mem_reverse] at hc
    exact List.mem_takeWhile_imp hc

theorem trim_length_le (s : List Char) : (trim s).length ≤ s.length := by
  obtain ⟨a, b, heq, -, -⟩ := trim_decomp s
  have := congrArg List.length heq
  simp only [List.length_append] at this
  omega

theorem splitsInto_trim {s : List Char} {us : List (List Char)}
    (hg : GoodUrls us) (h : SplitsInto s us) : SplitsInto (trim s) us := by
  obtain ⟨a, b, heq, hwa, hwb⟩ := trim_decomp s
  rw [heq, List.append_assoc] at h
  exact splitsInto_of_ws_suffix hg hwb (splitsInto_of_ws_lead a hwa hg h)

theorem occurs_of_splitsInto {t u : List Char} {us : List (List Char)}
    (h : SplitsInto t (u :: us)) : Occurs u t := by
  obtain ⟨pre, rest, heq, -⟩ := h
  exact ⟨pre, rest, heq⟩

theorem fold_removal :
    ∀ (us : List (List Char)) (t : List Char), GoodUrls us → SplitsInto t us →
      (us.foldl (fun t u => trim (removeFirst t u)) t).length + (us.map List.length).sum ≤
        t.length := by
  intro us
  induction us with
  | nil => intro t _ _; simp
  | cons u us' ih =>
    intro t hg h
    have hocc : Occurs u t := occurs_of_splitsInto h
    have hlen : (removeFirst t u).length + u.length = t.length :=
      occurs_removeFirst_length hocc
    have hs1 : SplitsInto (removeFirst t u) us' := splitsInto_removeFirst h
    have hg' : GoodUrls us' := fun x hx => hg x (List.mem_cons_of_mem u hx)
    have hs2 : SplitsInto (trim (removeFirst t u)) us' := splitsInto_trim hg' hs1
    have htl : (trim (removeFirst t u)).length ≤ (removeFirst t u).length :=
      trim_length_le _
    have := ih (trim (removeFirst t u)) hg' hs2
    simp only [List.foldl_cons, List.map_cons, List.sum_cons]
    omega

theorem composeContent_def (text : List Char) (pending : Option (List Char)) :
    composeContent text pending =
      (if ((extractImageUrls text).foldl (fun t u => trim (removeFirst t u)) text).isEmpty
        then [] else
        [ContentPart.text ((extractImageUrls text).foldl (fun t u => trim (removeFirst t u)) text)]) ++
      (extractImageUrls text ++ pending.toList).filterMap classifyImage := rfl

theorem filterMap_classify_map {us : List (List Char)}
    (h : ∀ u ∈ us, startsWith ("http://".data) u = true ∨
      startsWith ("https://".data) u = true) :
    us.filterMap classifyImage = us.map ContentPart.image_url := by
  induction us with
  | nil => rfl
  | cons u us ih =>
    have hu := h u (List.mem_cons_self u us)
    have hcond : (startsWith ("http://".data) u || startsWith ("https://".data) u) = true := by
      rcases hu with hu | hu <;> simp [hu]
    rw [List.filterMap_cons, List.map_cons, classifyImage, if_pos hcond,
      ih (fun x hx => h x (List.mem_cons_of_mem u hx))]

theorem guardFails_false {st : UIState}
    (h : trim st.textInput ≠ [] ∨ st.pendingImage ≠ none) : guardFails st = false := by
  rw [guardFails]
  rcases h with h | h
  · have h1 : (trim st.textInput).isEmpty = false := by
      cases hh : trim st.textInput with
      | nil => exact absurd hh h
      | cons c cs => rfl
    rw [h1, Bool.false_and]
  · have h1 : st.pendingImage.isNone = false := by
      cases hh : st.pendingImage with
      | none => exact absurd hh h
      | some p => rfl
    rw [h1, Bool.and_false]

theorem composeContent_ne_nil {text : List Char} {pending : Option (List Char)}
    (hor : text ≠ [] ∨ pending ≠ none)
    (hp : ∀ p, pending = some p → startsWith ("data:image/".data) p = true) :
    composeContent text pending ≠ [] := by
  rw [composeContent_def]
  cases pending with
  | some p =>
    have hdp := hp p rfl
    have hcl : ∃ x, classifyImage p = some x := by
      rw [classifyImage]
      by_cases hh : (startsWith ("http://".data) p || startsWith ("https://".data) p) = true
      · exact ⟨_, by rw [if_pos hh]⟩
      · exact ⟨_, by rw [if_neg hh, if_pos hdp]⟩
    obtain ⟨x, hx⟩ := hcl
    have hmem : x ∈ (extractImageUrls text ++ [p]).filterMap classifyImage :=
      List.mem_filterMap.2 ⟨p, by simp, hx⟩
    have : (extractImageUrls text ++ (some p).toList).filterMap classifyImage ≠ [] := by
      simpa using List.ne_nil_of_mem hmem
    simp only [ne_eq, List.append_eq_nil, not_and]
    intro _
    exact this
  | none =>
    have htext : text ≠ [] := by
      rcases hor with h | h
      · exact h
      · exact absurd rfl h
    cases hurl : extractImageUrls text with
    | nil =>
      have : text.isEmpty = false := by
        cases hh : text with
        | nil => exact absurd hh htext
        | cons c cs => rfl
      simp [hurl, this]
    | cons u us =>
      have humem : u ∈ extractImageUrls text := by rw [hurl]; exact List.mem_cons_self u us
      have hsch := (extractImageUrls_mem humem).2.1
      have hcond : (startsWith ("http://".data) u || startsWith ("https://".data) u) = true := by
        rcases hsch with hs | hs <;> simp [hs]
      have hx : classifyImage u = some (ContentPart.image_url u) := by
        rw [classifyImage, if_pos hcond]
      have hmem : ContentPart.image_url u ∈
          (extractImageUrls text ++ (Option.toList none)).filterMap classifyImage :=
        List.mem_filterMap.2 ⟨u, by simp [humem], hx⟩
      have hne := List.ne_nil_of_mem hmem
      rw [hurl] at hne
      simp only [ne_eq, List.append_eq_nil, not_and]
      intro _
      exact hne

theorem chatHistoryOf_eq_map {msgs : List Message}
    (h : ∀ m ∈ msgs, m.content ≠ []) : chatHistoryOf msgs = msgs.map wireOf := by
  induction msgs with
  | nil => rfl
  | cons m ms ih =>
    have hm := h m (List.mem_cons_self m ms)
    have hie : m.content.isEmpty = false := by
      cases hh : m.content with
      | nil => exact absurd hh hm
      | cons c cs => rfl
    rw [chatHistoryOf, List.filterMap_cons, hie]
    simp only [Bool.false_eq_true, if_false, List.map_cons]
    exact congrArg _ (ih (fun x hx => h x (List.mem_cons_of_mem m hx)))

theorem matchMarkerAt_decomp {s m tok rest : List Char}
    (h : matchMarkerAt s = some (m, tok, rest)) : s = m ++ rest := by
  simp only [matchMarkerAt] at h
  split at h
  · split at h
    · split at h
      · injection h with h1
        injection h1 with h2 h3
        injection h3 with h4 h5
        subst h2; subst h5
        exact (List.take_append_drop _ s).symm
      · exact absurd h (by simp)
    · exact absurd h (by simp)
  · exact absurd h (by simp)

theorem findMarker_decomp :
    ∀ {s pre tok rest : List Char}, findMarker s = some (pre, tok, rest) →
      ∃ mid, s = pre ++ mid ++ rest ∧ matchMarkerAt (mid ++ rest) = some (mid, tok, rest) := by
  intro s
  induction s with
  | nil => intro pre tok rest h; exact absurd h (by simp [findMarker])
  | cons c cs ih =>
    intro pre tok rest h
    rw [findMarker] at h
    rcases hm : matchMarkerAt (c :: cs) with _ | ⟨m, tk, rst⟩
    · rw [hm] at h
      rcases hf : findMarker cs with _ | ⟨p, tk, rst⟩
      · rw [hf] at h; exact absurd h (by simp)
      · rw [hf] at h
        injection h with h1
        injection h1 with h2 h3
        injection h3 with h4 h5
        subst h2; subst h4; subst h5
        obtain ⟨mid, hmid, hmm⟩ := ih hf
        exact ⟨mid, by rw [List.cons_append, List.cons_append, ← hmid], hmm⟩
    · rw [hm] at h
      injection h with h1
      injection h1 with h2 h3
      injection h3 with h4 h5
      subst h2; subst h4; subst h5
      have hd := matchMarkerAt_decomp hm
      exact ⟨m, by simpa using hd, by rw [← hd]; exact hm⟩

/-- C3: for every input containing a bracketed `[Image Link: <token>]`
marker (case-insensitive), the entire matched marker substring is removed
from the visible text regardless of the token's validity, the token
becomes an image URL only when it has an http/https scheme (so no image
URL ever lacks such a scheme), and in particular parsing
`[Image Link: ftp://x.com/a.jpg] hi` yields visible text `hi` and no
image. -/
theorem vqa_C3_marker_stripping :
    (∀ input pre tok rest : List Char,
      findMarker (trim input) = some (pre, tok, rest) →
        (∃ mid, trim input = pre ++ mid ++ rest) ∧
        parse1 input =
          ((if trim (pre ++ rest) = [] then none else some (trim (pre ++ rest))),
           (if schemeOkCI tok then some tok else none))) ∧
    (∀ input u : List Char, (parse1 input).2 = some u → schemeOkCI u = true) ∧
    parse1 ("[Image Link: ftp://x.com/a.jpg] hi".data) = (some ("hi".data), none) := by
  refine ⟨?_, ?_, by decide⟩
  · intro input pre tok rest h
    obtain ⟨mid, hmid, -⟩ := findMarker_decomp h
    exact ⟨⟨mid, hmid⟩, by simp only [parse1, h]⟩
  · intro input u h
    rw [parse1] at h
    rcases hf : findMarker (trim input) with _ | ⟨p, t, r⟩
    · rw [hf] at h
      exact absurd h (by simp)
    · rw [hf] at h
      simp only at h
      by_cases hs : schemeOkCI t = true
      · rw [if_pos hs] at h
        injection h with h1
        rw [← h1]
        exact hs
      · rw [if_neg hs] at h
        exact absurd h (by simp)

/-- Witness for the C3 theorem at the ftp example of the specification. -/
theorem vqa_C3_marker_stripping_wit :
    (∃ mid, trim ("[Image Link: ftp://x.com/a.jpg] hi".data) =
      ([] : List Char) ++ mid ++ (" hi".data)) ∧
    parse1 ("[Image Link: ftp://x.com/a.jpg] hi".data) =
      ((if trim (([] : List Char) ++ (" hi".data)) = [] then none
        else some (trim (([] : List Char) ++ (" hi".data)))),
       (if schemeOkCI ("ftp://x.com/a.jpg".data) then some ("ftp://x.com/a.jpg".data)
        else none)) :=
  vqa_C3_marker_stripping.1 _ [] ("ftp://x.com/a.jpg".data) (" hi".data) (by decide)

/-- C4: every URL extracted by the bare-URL pipeline has an http/https
scheme and ends (case-insensitively) in a recognized image extension; the
extracted URLs occur in the trimmed input disjointly in left-to-right
order; each of them is removed from the visible text (so the visible
length plus all URL lengths is bounded by the input length); and the
composed content is one optional text part followed by one `image_url`
part per extracted URL, in order. -/
theorem vqa_C4_bare_url_extraction (input : List Char) :
    (∀ u ∈ (parse2 input).2,
      (startsWith ("http://".data) u = true ∨ startsWith ("https://".data) u = true) ∧
      (∃ ext ∈ imageExtensions, endsWith ext (u.map lowerChar) = true)) ∧
    SplitsInto (trim input) (parse2 input).2 ∧
    (parse2 input).1.length + ((parse2 input).2.map List.length).sum ≤ (trim input).length ∧
    composeContent (trim input) none =
      (if (parse2 input).1 = [] then [] else [ContentPart.text (parse2 input).1]) ++
        (parse2 input).2.map ContentPart.image_url := by
  refine ⟨?_, ?_, ?_, ?_⟩
  · intro u hu
    have hm := extractImageUrls_mem (t := trim input) (by simpa [parse2] using hu)
    exact ⟨hm.2.1, hm.2.2.2⟩
  · simpa [parse2] using extractImageUrls_splits (trim input)
  · simpa [parse2] using
      fold_removal (extractImageUrls (trim input)) (trim input)
        (extractImageUrls_good (trim input)) (extractImageUrls_splits (trim input))
  · rw [composeContent_def]
    simp only [parse2, Option.toList_none, List.append_nil]
    rw [filterMap_classify_map (fun u hu => (extractImageUrls_mem hu).2.1)]
    congr 1
    by_cases hh :
        (extractImageUrls (trim input)).foldl (fun t u => trim (removeFirst t u))
          (trim input) = []
    · rw [hh]
      simp
    · rw [if_neg hh]
      have : ((extractImageUrls (trim input)).foldl (fun t u => trim (removeFirst t u))
          (trim input)).isEmpty = false := by
        cases hc : (extractImageUrls (trim input)).foldl (fun t u => trim (removeFirst t u))
            (trim input) with
        | nil => exact absurd hc hh
        | cons x xs => rfl
      rw [this]
      simp

/-- Witness for the C4 theorem on a two-URL input. -/
theorem vqa_C4_bare_url_extraction_wit :
    ((startsWith ("http://".data) ("http://a.com/x.png".data) = true ∨
      startsWith ("https://".data) ("http://a.com/x.png".data) = true) ∧
     (∃ ext ∈ imageExtensions,
        endsWith ext (("http://a.com/x.png".data).map lowerChar) = true)) ∧
    SplitsInto (trim ("see http://a.com/x.png and http://b.com/y.JPG end".data))
      (parse2 ("see http://a.com/x.png and http://b.com/y.JPG end".data)).2 :=
  ⟨(vqa_C4_bare_url_extraction
      ("see http://a.com/x.png and http://b.com/y.JPG end".data)).1
      ("http://a.com/x.png".data) (by decide),
   (vqa_C4_bare_url_extraction
      ("see http://a.com/x.png and http://b.com/y.JPG end".data)).2.1⟩

theorem resizeDims_spec (w h : ℚ) (hw : 0 < w) (hh : 0 < h) :
    ∃ x y, resizeDims w h = (x, y) ∧ x * h = y * w ∧
      (w ≤ 512 ∧ h ≤ 512 → x = w ∧ y = h) ∧
      ((512 < w ∨ 512 < h) → max x y = 512 ∧ x ≤ 512 ∧ y ≤ 512) := by
  rw [resizeDims, show maxDimension = (512 : ℚ) from rfl]
  split_ifs with h1 h2 h2
  · -- landscape, width over the bound
    refine ⟨512, h * 512 / w, rfl, ?_, ?_, ?_⟩
    · rw [div_mul_cancel₀ _ (ne_of_gt hw)]
      ring
    · rintro ⟨hw5, -⟩
      linarith
    · intro _
      have hle : h * 512 / w ≤ 512 := by
        rw [div_le_iff₀ hw]
        nlinarith
      exact ⟨max_eq_left hle, le_refl _, hle⟩
  · -- landscape, already within the bound
    refine ⟨w, h, rfl, by ring, fun _ => ⟨rfl, rfl⟩, ?_⟩
    rintro (hc | hc)
    · exact absurd hc h2
    · linarith
  · -- portrait or square, height over the bound
    refine ⟨w * 512 / h, 512, rfl, ?_, ?_, ?_⟩
    · rw [div_mul_cancel₀ _ (ne_of_gt hh)]
      ring
    · rintro ⟨-, hh5⟩
      linarith
    · intro _
      have hwle : w ≤ h := le_of_not_lt h1
      have hle : w * 512 / h ≤ 512 := by
        rw [div_le_iff₀ hh]
        nlinarith
      exact ⟨max_eq_right hle, hle, le_refl _⟩
  · -- portrait or square, already within the bound
    refine ⟨w, h, rfl, by ring, fun _ => ⟨rfl, rfl⟩, ?_⟩
    have hwle : w ≤ h := le_of_not_lt h1
    rintro (hc | hc)
    · linarith
    · exact absurd hc h2

/-- C6: an upload with a declared `image/...` media type is accepted and
resized: the aspect ratio is preserved exactly (`width' * h = height' * w`),
dimensions already within 512 are kept unchanged (no upscaling), a larger
dimension beyond 512 is scaled so that the larger output axis equals 512
and both outputs are at most 512, and the result is re-encoded as JPEG at
quality 0.7. -/
theorem vqa_C6_image_preprocess (fileType : List Char) (w h : ℚ)
    (hw : 0 < w) (hh : 0 < h) (hft : startsWith ("image/".data) fileType = true) :
    ∃ p : PendingUpload, handleFileChange fileType w h = some p ∧
      p.width * h = p.height * w ∧
      (w ≤ 512 ∧ h ≤ 512 → p.width = w ∧ p.height = h) ∧
      ((512 < w ∨ 512 < h) → max p.width p.height = 512 ∧ p.width ≤ 512 ∧ p.height ≤ 512) ∧
      p.mime = ("image/jpeg".data) ∧ p.quality = 7/10 := by
  obtain ⟨x, y, hxy, ha, hid, hbd⟩ := resizeDims_spec w h hw hh
  refine ⟨⟨x, y, ("image/jpeg".data), 7/10⟩, ?_, ha, hid, hbd, rfl, rfl⟩
  rw [handleFileChange, if_pos hft, hxy]

/-- Witness for the C6 theorem at the 2000 by 1000 example. -/
theorem vqa_C6_image_preprocess_wit :
    (0 : ℚ) < 2000 ∧ (0 : ℚ) < 1000 ∧
    startsWith ("image/".data) ("image/png".data) = true ∧
    (∃ p : PendingUpload, handleFileChange ("image/png".data) 2000 1000 = some p ∧
      p.width * 1000 = p.height * 2000 ∧
      ((2000 : ℚ) ≤ 512 ∧ (1000 : ℚ) ≤ 512 → p.width = 2000 ∧ p.height = 1000) ∧
      ((512 : ℚ) < 2000 ∨ (512 : ℚ) < 1000 →
        max p.width p.height = 512 ∧ p.width ≤ 512 ∧ p.height ≤ 512) ∧
      p.mime = ("image/jpeg".data) ∧ p.quality = 7/10) :=
  ⟨by norm_num, by norm_num, by decide,
   vqa_C6_image_preprocess ("image/png".data) 2000 1000 (by norm_num) (by norm_num)
     (by decide)⟩

theorem guardFails_eq_false {st : UIState} (h : guardFails st = false) :
    trim st.textInput ≠ [] ∨ st.pendingImage ≠ none := by
  by_cases h1 : trim st.textInput = []
  · right
    intro h2
    rw [guardFails, h1, h2] at h
    simp at h
  · exact Or.inl h1

theorem hsm_unauth {st : UIState} (now now2 : Nat) (outcome : FetchOutcome)
    (hg : guardFails st = false) (htok : st.token = none) :
    handleSendMessage st now now2 outcome =
      ⟨some (Request.unauthInference (chatHistoryOf (st.messages ++ [userMessageOf st now]))),
       { st with messages := st.messages ++ [userMessageOf st now, outcomeReply now2 outcome],
                 textInput := [], pendingImage := none }⟩ := by
  rw [handleSendMessage, hg]
  simp only [Bool.false_eq_true, if_false, htok]
  simp [List.append_assoc]

theorem hsm_auth {st : UIState} (now now2 : Nat) (outcome : FetchOutcome) {tok : List Char}
    (hg : guardFails st = false) (htok : st.token = some tok)
    (hmt : (truthyId st.userId && truthyId st.currentChatId) = true) :
    handleSendMessage st now now2 outcome =
      ⟨some (Request.authInference ⟨("user".data), (userMessageOf st now).content⟩
         (st.userId.getD 0) (st.currentChatId.getD 0)),
       { st with messages := st.messages ++ [userMessageOf st now, outcomeReply now2 outcome],
                 textInput := [], pendingImage := none }⟩ := by
  rw [handleSendMessage, hg]
  simp only [Bool.false_eq_true, if_false, htok, hmt, if_true]
  simp [List.append_assoc]

theorem hsm_missing {st : UIState} (now now2 : Nat) (outcome : FetchOutcome) {tok : List Char}
    (hg : guardFails st = false) (htok : st.token = some tok)
    (hmt : (truthyId st.userId && truthyId st.currentChatId) = false) :
    handleSendMessage st now now2 outcome =
      ⟨none,
       { st with messages := st.messages ++ [userMessageOf st now, missingCtxReply now2],
                 textInput := [], pendingImage := none }⟩ := by
  rw [handleSendMessage, hg]
  simp only [Bool.false_eq_true, if_false, htok, hmt]
  simp [List.append_assoc]

theorem outcomeReply_fields (now2 : Nat) (o : FetchOutcome) :
    (outcomeReply now2 o).id = now2 + 1 ∧ (outcomeReply now2 o).isUser = false ∧
    (outcomeReply now2 o).timestamp = now2 ∧
    ∃ t, (outcomeReply now2 o).content = [ContentPart.text t] := by
  cases o with
  | success ans => exact ⟨rfl, rfl, rfl, _, rfl⟩
  | httpError s d => exact ⟨rfl, rfl, rfl, _, rfl⟩
  | networkFailure m => exact ⟨rfl, rfl, rfl, _, rfl⟩

theorem hsm_shape {st : UIState} (now now2 : Nat) (outcome : FetchOutcome)
    (hg : guardFails st = false) :
    ∃ bot : Message, (handleSendMessage st now now2 outcome).final =
        { st with messages := st.messages ++ [userMessageOf st now, bot],
                  textInput := [], pendingImage := none } ∧
      bot.id = now2 + 1 ∧ bot.isUser = false ∧ bot.timestamp = now2 ∧
      ∃ t, bot.content = [ContentPart.text t] := by
  rcases htok : st.token with _ | tok
  · exact ⟨outcomeReply now2 outcome, by rw [hsm_unauth now now2 outcome hg htok, htok],
      outcomeReply_fields now2 outcome⟩
  · by_cases hmt : (truthyId st.userId && truthyId st.currentChatId) = true
    · exact ⟨outcomeReply now2 outcome, by rw [hsm_auth now now2 outcome hg htok hmt, htok],
        outcomeReply_fields now2 outcome⟩
    · have hmt' : (truthyId st.userId && truthyId st.currentChatId) = false :=
        Bool.eq_false_iff.2 hmt
      exact ⟨missingCtxReply now2, by rw [hsm_missing now now2 outcome hg htok hmt', htok],
        rfl, rfl, rfl, _, rfl⟩

/-- C1: for a non-empty composition, an anonymous send (no token) issues
the unauthenticated inference request whose body holds every prior stored
message plus the new one as role+content records; an authenticated send
with usable user and chat ids issues the authenticated request holding
only the new message's content plus the two ids; and an authenticated
send with no selected chat issues no request at all and recovers with the
missing-context assistant message. -/
theorem vqa_C1_dispatch_shapes (st : UIState) (now now2 : Nat) (outcome : FetchOutcome)
    (hguard : trim st.textInput ≠ [] ∨ st.pendingImage ≠ none)
    (hpend : pendingInv st) :
    (st.token = none → (∀ m ∈ st.messages, m.content ≠ []) →
      (handleSendMessage st now now2 outcome).request =
        some (Request.unauthInference
          ((st.messages ++ [userMessageOf st now]).map wireOf))) ∧
    (∀ tok uid cid, st.token = some tok → st.userId = some uid → uid ≠ 0 →
      st.currentChatId = some cid → cid ≠ 0 →
      (handleSendMessage st now now2 outcome).request =
        some (Request.authInference ⟨("user".data), (userMessageOf st now).content⟩ uid cid)) ∧
    (∀ tok uid, st.token = some tok → st.userId = some uid →
      st.currentChatId = none →
      (handleSendMessage st now now2 outcome).request = none ∧
      (handleSendMessage st now now2 outcome).final.messages =
        st.messages ++ [userMessageOf st now, missingCtxReply now2]) := by
  have hg : guardFails st = false := guardFails_false hguard
  refine ⟨?_, ?_, ?_⟩
  · intro htok hmsgs
    rw [hsm_unauth now now2 outcome hg htok]
    have hall : ∀ m ∈ st.messages ++ [userMessageOf st now], m.content ≠ [] := by
      intro m hm
      rcases List.mem_append.1 hm with hm | hm
      · exact hmsgs m hm
      · rw [List.mem_singleton] at hm
        subst hm
        exact composeContent_ne_nil hguard hpend
    rw [chatHistoryOf_eq_map hall]
  · intro tok uid cid htok huid hu0 hcid hc0
    have hmt : (truthyId st.userId && truthyId st.currentChatId) = true := by
      rw [huid, hcid]
      simp [truthyId, hu0, hc0]
    rw [hsm_auth now now2 outcome hg htok hmt, huid, hcid]
    rfl
  · intro tok uid htok huid hcid
    have hmt : (truthyId st.userId && truthyId st.currentChatId) = false := by
      rw [hcid]
      simp [truthyId]
    rw [hsm_missing now now2 outcome hg htok hmt]
    exact ⟨rfl, rfl⟩

/-- Witness for the C1 theorem: the anonymous branch on a fresh state. -/
theorem vqa_C1_dispatch_shapes_wit :
    (handleSendMessage anonState 5 6 (FetchOutcome.success ("ok".data))).request =
      some (Request.unauthInference
        ((anonState.messages ++ [userMessageOf anonState 5]).map wireOf)) :=
  (vqa_C1_dispatch_shapes anonState 5 6 (FetchOutcome.success ("ok".data))
      (Or.inl (by decide)) (fun _ hp => Option.noConfusion hp)).1
    rfl (fun m hm => absurd hm (List.not_mem_nil m))

/-- C7: an empty or whitespace-only composition with no pending image is
rejected before touching the store (the call is a complete no-op and no
request is issued), and under the pending-image invariant every message
in the store after a send either was already stored or has a non-empty
content-part list. -/
theorem vqa_C7_no_empty_composition (st : UIState) (now now2 : Nat) (outcome : FetchOutcome) :
    (trim st.textInput = [] ∧ st.pendingImage = none →
      handleSendMessage st now now2 outcome = ⟨none, st⟩) ∧
    (pendingInv st →
      ∀ m ∈ (handleSendMessage st now now2 outcome).final.messages,
        m ∈ st.messages ∨ m.content ≠ []) := by
  constructor
  · rintro ⟨h1, h2⟩
    have hgf : guardFails st = true := by
      rw [guardFails, h1, h2]
      rfl
    rw [handleSendMessage, hgf]
    rfl
  · intro hpend m hm
    by_cases hg : guardFails st = true
    · rw [handleSendMessage, hg] at hm
      exact Or.inl hm
    · have hg' : guardFails st = false := Bool.eq_false_iff.2 hg
      obtain ⟨bot, hfin, -, -, -, t, hbt⟩ := hsm_shape now now2 outcome hg'
      rw [hfin] at hm
      simp only [List.mem_append, List.mem_cons, List.mem_singleton] at hm
      rcases hm with hm | hm | hm
      · exact Or.inl hm
      · subst hm
        exact Or.inr (composeContent_ne_nil (guardFails_eq_false hg') hpend)
      · rcases hm with hm | hm
        · subst hm
          rw [hbt]
          exact Or.inr (by simp)
        · exact absurd hm (by simp)

/-- Witness for the C7 theorem: the no-op branch on a blank draft, and the
membership property on the anonymous state. -/
theorem vqa_C7_no_empty_composition_wit :
    (handleSendMessage ⟨[], ("  ".data), none, none, none, none, [], none⟩ 1 2
        (FetchOutcome.success ("ok".data)) =
      ⟨none, ⟨[], ("  ".data), none, none, none, none, [], none⟩⟩) ∧
    (∀ m ∈ (handleSendMessage anonState 5 6 (FetchOutcome.success ("ok".data))).final.messages,
      m ∈ anonState.messages ∨ m.content ≠ []) :=
  ⟨(vqa_C7_no_empty_composition ⟨[], ("  ".data), none, none, none, none, [], none⟩ 1 2
      (FetchOutcome.success ("ok".data))).1 ⟨by decide, rfl⟩,
   (vqa_C7_no_empty_composition anonState 5 6 (FetchOutcome.success ("ok".data))).2
     (fun _ hp => Option.noConfusion hp)⟩

/-- C10: once the guard passes, the drafted text and pending image are
consumed: whatever the fetch outcome (success, HTTP error, network
failure) or the branch taken, the final state has an empty text input and
no pending image. -/
theorem vqa_C10_draft_consumed (st : UIState) (now now2 : Nat) (outcome : FetchOutcome)
    (hguard : trim st.textInput ≠ [] ∨ st.pendingImage ≠ none) :
    (handleSendMessage st now now2 outcome).final.textInput = [] ∧
    (handleSendMessage st now now2 outcome).final.pendingImage = none := by
  obtain ⟨bot, hfin, -⟩ := hsm_shape now now2 outcome (guardFails_false hguard)
  rw [hfin]
  exact ⟨rfl, rfl⟩

/-- Witness for the C10 theorem: a failing authenticated send still clears
the draft. -/
theorem vqa_C10_draft_consumed_wit :
    (handleSendMessage cexSendState 5 9 (FetchOutcome.networkFailure ("boom".data))).final.textInput
        = [] ∧
    (handleSendMessage cexSendState 5 9
        (FetchOutcome.networkFailure ("boom".data))).final.pendingImage = none :=
  vqa_C10_draft_consumed cexSendState 5 9 (FetchOutcome.networkFailure ("boom".data))
    (Or.inl (by decide))

/-- C9: on every failure path of a non-empty send — a non-success HTTP
status or a rejected fetch in either inference branch, or a missing chat
context in the authenticated branch — exactly one assistant message is
appended after the user message, and its content is a single text part
holding the recovered failure description; the missing-context case also
issues no request.  The call is total, so no error escapes the handler. -/
theorem vqa_C9_failure_recovery (st : UIState) (now now2 : Nat)
    (hguard : trim st.textInput ≠ [] ∨ st.pendingImage ≠ none) :
    (∀ status detail, st.token = none →
      (handleSendMessage st now now2 (FetchOutcome.httpError status detail)).final.messages =
        st.messages ++ [userMessageOf st now,
          ⟨now2 + 1, [ContentPart.text (errorText (httpErrMsg status detail))], false, now2⟩]) ∧
    (∀ msg, st.token = none →
      (handleSendMessage st now now2 (FetchOutcome.networkFailure msg)).final.messages =
        st.messages ++ [userMessageOf st now,
          ⟨now2 + 1, [ContentPart.text (errorText msg)], false, now2⟩]) ∧
    (∀ tok status detail, st.token = some tok →
      (truthyId st.userId && truthyId st.currentChatId) = true →
      (handleSendMessage st now now2 (FetchOutcome.httpError status detail)).final.messages =
        st.messages ++ [userMessageOf st now,
          ⟨now2 + 1, [ContentPart.text (errorText (httpErrMsg status detail))], false, now2⟩]) ∧
    (∀ tok msg, st.token = some tok →
      (truthyId st.userId && truthyId st.currentChatId) = true →
      (handleSendMessage st now now2 (FetchOutcome.networkFailure msg)).final.messages =
        st.messages ++ [userMessageOf st now,
          ⟨now2 + 1, [ContentPart.text (errorText msg)], false, now2⟩]) ∧
    (∀ tok outcome, st.token = some tok →
      (truthyId st.userId && truthyId st.currentChatId) = false →
      (handleSendMessage st now now2 outcome).request = none ∧
      (handleSendMessage st now now2 outcome).final.messages =
        st.messages ++ [userMessageOf st now,
          ⟨now2 + 1, [ContentPart.text (errorText missingCtxMsg)], false, now2⟩]) := by
  have hg : guardFails st = false := guardFails_false hguard
  refine ⟨?_, ?_, ?_, ?_, ?_⟩
  · intro status detail htok
    rw [hsm_unauth now now2 (FetchOutcome.httpError status detail) hg htok]
    rfl
  · intro msg htok
    rw [hsm_unauth now now2 (FetchOutcome.networkFailure msg) hg htok]
    rfl
  · intro tok status detail htok hmt
    rw [hsm_auth now now2 (FetchOutcome.httpError status detail) hg htok hmt]
    rfl
  · intro tok msg htok hmt
    rw [hsm_auth now now2 (FetchOutcome.networkFailure msg) hg htok hmt]
    rfl
  · intro tok outcome htok hmt
    rw [hsm_missing now now2 outcome hg htok hmt]
    exact ⟨rfl, rfl⟩

/-- Witness for the C9 theorem: an anonymous network failure on a fresh
state yields the inline assistant error message. -/
theorem vqa_C9_failure_recovery_wit :
    (handleSendMessage anonState 5 6 (FetchOutcome.networkFailure ("boom".data))).final.messages =
      anonState.messages ++ [userMessageOf anonState 5,
        ⟨7, [ContentPart.text (errorText ("boom".data))], false, 6⟩] :=
  (vqa_C9_failure_recovery anonState 5 6 (Or.inl (by decide))).2.1 ("boom".data) rfl

/-- C8 (amended): a non-empty send appends the user message and then one
assistant reply at the end of the store, never reordering or mutating the
prior entries; the user message's id and timestamp are the compose-time
clock instant and the reply's id is the reply-time instant plus one; the
resulting ids are pairwise distinct only under the assumption that these
clock values avoid every id already stored (the code does not enforce
this). -/
theorem vqa_C8_append_discipline (st : UIState) (now now2 : Nat) (outcome : FetchOutcome)
    (hguard : trim st.textInput ≠ [] ∨ st.pendingImage ≠ none) :
    ∃ bot : Message,
      (handleSendMessage st now now2 outcome).final.messages =
        st.messages ++ [userMessageOf st now, bot] ∧
      (userMessageOf st now).id = now ∧ (userMessageOf st now).timestamp = now ∧
      bot.id = now2 + 1 ∧ bot.timestamp = now2 ∧ bot.isUser = false ∧
      ((st.messages.map Message.id).Nodup →
        now ∉ st.messages.map Message.id →
        now2 + 1 ∉ st.messages.map Message.id →
        now ≠ now2 + 1 →
        ((handleSendMessage st now now2 outcome).final.messages.map Message.id).Nodup) := by
  obtain ⟨bot, hfin, hid, hiu, hts, -⟩ := hsm_shape now now2 outcome (guardFails_false hguard)
  refine ⟨bot, by rw [hfin], rfl, rfl, hid, hts, hiu, ?_⟩
  intro hnd hn1 hn2 hne
  rw [hfin]
  show ((st.messages ++ [userMessageOf st now, bot]).map Message.id).Nodup
  rw [List.map_append]
  rw [List.nodup_append]
  refine ⟨hnd, ?_, ?_⟩
  · show ([userMessageOf st now, bot].map Message.id).Nodup
    have : [userMessageOf st now, bot].map Message.id = [now, now2 + 1] := by
      simp [hid, userMessageOf]
    rw [this]
    simp [hne]
  · intro a ha hb
    have : [userMessageOf st now, bot].map Message.id = [now, now2 + 1] := by
      simp [hid, userMessageOf]
    rw [this] at hb
    simp only [List.mem_cons, List.not_mem_nil, or_false] at hb
    rcases hb with rfl | rfl
    · exact hn1 ha
    · exact hn2 ha

/-- Witness for the C8 amended theorem on the concrete authenticated
state. -/
theorem vqa_C8_append_discipline_wit :
    ∃ bot : Message,
      (handleSendMessage cexSendState 11 20 (FetchOutcome.success ("ok".data))).final.messages =
        cexSendState.messages ++ [userMessageOf cexSendState 11, bot] ∧
      (userMessageOf cexSendState 11).id = 11 ∧
      (userMessageOf cexSendState 11).timestamp = 11 ∧
      bot.id = 21 ∧ bot.timestamp = 20 ∧ bot.isUser = false ∧
      ((cexSendState.messages.map Message.id).Nodup →
        11 ∉ cexSendState.messages.map Message.id →
        21 ∉ cexSendState.messages.map Message.id →
        11 ≠ 21 →
        ((handleSendMessage cexSendState 11 20
          (FetchOutcome.success ("ok".data))).final.messages.map Message.id).Nodup) :=
  vqa_C8_append_discipline cexSendState 11 20 (FetchOutcome.success ("ok".data))
    (Or.inl (by decide))

/-- Counterexample to C8 as stated: sending from `cexSendState` (one
stored message with id 5) at clock instant 5 assigns the new user message
the id 5 as well, so the store ends with two messages sharing an id. -/
theorem vqa_C8_cex :
    ¬ (((handleSendMessage cexSendState 5 9
        (FetchOutcome.success ("ok".data))).final.messages.map Message.id).Nodup) := by
  decide

/-- C2 (amended): `handleLogout` clears exactly the username record and
the token — the auth state becomes anonymous — while the Message Store,
the chat registry, the current chat id, the user id and the draft are all
left untouched; it is a total function and cannot fail. -/
theorem vqa_C2_logout_partial_clear (st : UIState) :
    (handleLogout st).token = none ∧ (handleLogout st).user = none ∧
    (handleLogout st).messages = st.messages ∧
    (handleLogout st).chats = st.chats ∧
    (handleLogout st).currentChatId = st.currentChatId ∧
    (handleLogout st).userId = st.userId ∧
    (handleLogout st).textInput = st.textInput ∧
    (handleLogout st).pendingImage = st.pendingImage :=
  ⟨rfl, rfl, rfl, rfl, rfl, rfl, rfl, rfl⟩

/-- Counterexample to C2 as stated: after logging out from a state with a
stored message, a chat registry, a selected chat and a user id, none of
these have been cleared. -/
theorem vqa_C2_cex :
    (handleLogout cexSendState).messages ≠ [] ∧
    (handleLogout cexSendState).chats ≠ [] ∧
    (handleLogout cexSendState).currentChatId ≠ none ∧
    (handleLogout cexSendState).userId ≠ none := by
  decide

/-- C5 (amended): on a successful, non-empty chat listing the registry is
set to the list in the order received and `currentChatId` is set to the
first entry's id (unconditionally); a successful empty listing and a
non-success response both leave an empty registry; a rejected fetch
leaves the whole state unchanged; in every case the token, identity and
messages are untouched and no blocking error is surfaced. -/
theorem vqa_C5_load_chats (st : UIState) :
    (∀ c cs, loadUserChats st (ChatsResult.ok (c :: cs)) =
      { st with chats := c :: cs, currentChatId := some c.id }) ∧
    (loadUserChats st (ChatsResult.ok []) = { st with chats := [] }) ∧
    (∀ body, loadUserChats st (ChatsResult.httpError body) = { st with chats := [] }) ∧
    (∀ msg, loadUserChats st (ChatsResult.networkFailure msg) = st) ∧
    (∀ r, (loadUserChats st r).token = st.token ∧ (loadUserChats st r).user = st.user ∧
      (loadUserChats st r).userId = st.userId ∧
      (loadUserChats st r).messages = st.messages) := by
  refine ⟨fun c cs => rfl, rfl, fun body => rfl, fun msg => rfl, ?_⟩
  intro r
  rcases r with l | body | msg
  · rcases l with _ | ⟨c, cs⟩
    · exact ⟨rfl, rfl, rfl, rfl⟩
    · exact ⟨rfl, rfl, rfl, rfl⟩
  · exact ⟨rfl, rfl, rfl, rfl⟩
  · exact ⟨rfl, rfl, rfl, rfl⟩

/-- Counterexample to C5 as stated: when the chat-listing fetch rejects
(network failure), the registry is not reset to empty — the previous
non-empty registry survives. -/
theorem vqa_C5_cex :
    (loadUserChats cexSendState (ChatsResult.networkFailure ("boom".data))).chats ≠ [] := by
  decide
